import Mathlib

/-!
# Verification of the tensorx dependency-graph engine

Shallow embedding of the `LayerGraph` construction / evaluation engine from
`tensorx/train.py`, the generic `Graph` container from `tensorx/utils.py`
(modelled from the spec, the module itself is not in the sources), the
sparse arithmetic of `tensorx/math.py`, and the training loop of
`Model.train`, together with proofs settling the frozen claims about them.

Layers are identified by natural numbers.  A `LayerEnv` gives, for every
layer id, the data the engine inspects: its `input_layers` list, whether it
carries a `placeholder` attribute, and its default `value` attribute
(`none` models Python `None`).
-/

/-- The static layer universe: for each layer id, its `input_layers` list,
whether `hasattr(layer, "placeholder")` holds, and the `.value` default. -/
structure LayerEnv where
  input_layers : Nat → List Nat
  placeholder : Nat → Bool
  value : Nat → Option Int

/-- `hasattr(l, "placeholder") and len(l.input_layers) == 0`: the condition
under which `LayerGraph.__init__` registers a layer as an end-node
dependency. -/
def LayerEnv.isEndNode (env : LayerEnv) (l : Nat) : Bool :=
  (env.input_layers l).isEmpty && env.placeholder l

/-- `Reach env a b`: layer `b` is reachable from layer `a` by following
`input_layers` edges (reflexively and transitively). -/
inductive Reach (env : LayerEnv) : Nat → Nat → Prop
  | refl (a : Nat) : Reach env a a
  | step {a b c : Nat} : b ∈ env.input_layers a → Reach env b c → Reach env a c

/-- Mutable state threaded through `build_graph` in `LayerGraph.__init__`:
the shared `visited` set, the `dependencies` dict (total function, every
output starts at `[]`, matching `dependencies[output] = []`), and the edges
accumulated into the `Graph` via `graph.add_edge`. -/
structure BState where
  visited : List Nat
  deps : Nat → List Nat
  edges : List (Nat × Nat)

/-- The initial state of `LayerGraph.__init__` before any traversal. -/
def initBState : BState :=
  { visited := [], deps := fun _ => [], edges := [] }

/-- The `for input_layer in current_layer.input_layers` loop: each input
gets an edge, and is appended to `to_visit` when it is neither visited nor
already queued (`if input_layer not in visited and input_layer not in
to_visit`). -/
def enqueueInputs (visited : List Nat) (ins : List Nat) (q : List Nat) : List Nat :=
  ins.foldl (fun acc i => if i ∈ visited ∨ i ∈ acc then acc else acc ++ [i]) q

/-- One run of `build_graph(output_layer)`: a breadth-first worklist loop
over `to_visit`, popping from the front, skipping layers already in the
shared `visited` set, registering end nodes into `dependencies[output]`,
and enqueueing unvisited inputs.  `fuel` bounds the number of iterations;
the Python loop has no such bound, so the embedding returns `none` when
fuel runs out. -/
def bfsStep (env : LayerEnv) (out : Nat) : Nat → BState → List Nat → Option BState
  | _, st, [] => some st
  | 0, _, _ :: _ => none
  | fuel + 1, st, cur :: rest =>
    if cur ∈ st.visited then
      bfsStep env out fuel st rest
    else
      let visited' := cur :: st.visited
      let deps' : Nat → List Nat := fun o =>
        if o = out ∧ env.isEndNode cur ∧ cur ∉ st.deps out then
          st.deps out ++ [cur]
        else st.deps o
      let edges' := st.edges ++ (env.input_layers cur).map (fun i => (i, cur))
      let q' := enqueueInputs visited' (env.input_layers cur) rest
      bfsStep env out fuel { visited := visited', deps := deps', edges := edges' } q'

/-- `for output in self.output_layers: build_graph(output)`, threading the
shared state through the list of outputs. -/
def buildAll (env : LayerEnv) (fuel : Nat) : List Nat → BState → Option BState
  | [], st => some st
  | out :: rest, st =>
    match bfsStep env out fuel st [out] with
    | none => none
    | some st' => buildAll env fuel rest st'

/-- The result object of a successful `LayerGraph.__init__`. -/
structure LayerGraphRes where
  input_layers : List Nat
  output_layers : List Nat
  deps : Nat → List Nat
  layers : List Nat
  other_inputs : List Nat
  other_tensors : List Nat

/-- The two `ValueError`s `LayerGraph.__init__` can raise. -/
inductive InitError
  | missingDeps
  | unusedInputs
  deriving DecidableEq, Repr

/-- The missing-dependency dict accumulated in `__init__`: for each output,
the discovered dependencies that are not among the supplied inputs; the
check is skipped entirely when `len(self.input_layers) == 0`. -/
def initMissingDep (deps : Nat → List Nat) (inputs : List Nat) (outputs : List Nat) :
    List (Nat × List Nat) :=
  if inputs = [] then []
  else (outputs.map (fun o => (o, (deps o).filter (fun d => d ∉ inputs)))).filter
    (fun p => ¬ p.2 = [])

/-- `all_dependencies`: the union over all outputs of the discovered
dependencies. -/
def allDependencies (deps : Nat → List Nat) (outputs : List Nat) : List Nat :=
  (outputs.map deps).flatten

/-- `LayerGraph.__init__(outputs, inputs, other_tensors, other_inputs)`.

`inputs = []` models both `inputs=None` and an empty list (the code stores
`set(as_list(inputs))`, and `as_list(None) == []`).  The outer `Option` is
fuel exhaustion of the traversal (the Python code has no fuel); the
`Except` layer models the two `ValueError`s. -/
def layerGraphInit (env : LayerEnv) (fuel : Nat) (outputs : List Nat)
    (inputs : List Nat) (other_tensors : List Nat) (other_inputs : List Nat) :
    Option (Except InitError LayerGraphRes) :=
  match buildAll env fuel outputs initBState with
  | none => none
  | some st =>
    some (
      if ¬ initMissingDep st.deps inputs outputs = [] then
        Except.error InitError.missingDeps
      else
        let allDeps := allDependencies st.deps outputs
        let unused := inputs.filter (fun i => i ∉ allDeps)
        if ¬ unused = [] then
          Except.error InitError.unusedInputs
        else
          Except.ok
            { input_layers := if inputs = [] then allDeps.dedup else inputs
              output_layers := outputs
              deps := st.deps
              layers := st.visited
              other_inputs := other_inputs
              other_tensors := other_tensors })

/-! ## `LayerGraph.eval`

A feed dictionary is an association list from layer ids to values; lookup
takes the first match, and `dict.update` is modelled by prepending the
overriding entries.  The session is an oracle `sess` mapping a feed and a
fetched tensor to its value (`session.run(fetches, feed_dict)` evaluates
each fetch under the feed); layer `.tensor` attributes are identified with
the layer ids themselves. -/

/-- Errors `LayerGraph.eval` can raise.  `keyErrorOtherInputs` models the
raise for missing `other_inputs`: the message is built by calling
`str.format` with a positional argument on a template whose only field is
the named `{dep}`, so the `format` call itself raises `KeyError` before
the intended `ValueError` is constructed. -/
inductive EvalErr
  | typeError
  | invalidTargets
  | keyErrorOtherInputs
  | missingDeps
  deriving DecidableEq, Repr

/-- The value returned by `eval`: the bare result when the code unwraps the
singleton list, the full list otherwise. -/
inductive EvalOut
  | single (v : Int)
  | multi (vs : List Int)
  deriving DecidableEq, Repr

/-- `LayerGraph.missing_dependencies(inputs, outputs)`: for each requested
output, the recorded dependencies absent from `inputs`. -/
def missingDependencies (deps : Nat → List Nat) (fed : List Nat)
    (outs : List Nat) : List (Nat × List Nat) :=
  (outs.map (fun o => (o, (deps o).filter (fun d => d ∉ fed)))).filter
    (fun p => ¬ p.2 = [])

/-- The `use_defaults` block of `eval`: builds `default_feed` from the
missing dependencies that carry a default `value` and from every
`other_inputs` layer that carries one (the latter unconditionally, fed or
not), recomputes the still-missing dependencies, collects `other_inputs`
without defaults, and applies `feed.update(default_feed)` (entries of
`default_feed` take precedence). -/
def evalDefaultFill (env : LayerEnv) (other_inputs : List Nat)
    (missing0 : List (Nat × List Nat)) (f : List (Nat × Int)) :
    List (Nat × Int) × List (Nat × List Nat) × List Nat :=
  let defaultFeed :=
    ((missing0.map Prod.snd).flatten.filterMap
      (fun l => (env.value l).map (fun v => (l, v)))) ++
    (other_inputs.filterMap (fun l => (env.value l).map (fun v => (l, v))))
  let missing' :=
    (missing0.map (fun p => (p.1, p.2.filter (fun l => env.value l = none)))).filter
      (fun p => ¬ p.2 = [])
  let missingOthers := other_inputs.filter (fun l => env.value l = none)
  (defaultFeed ++ f, missing', missingOthers)

/-- The checking-and-feeding phase of `eval`, up to the point where
`session.run` is called: validates the feed and the requested targets,
applies the default fallback, and either raises or hands over the final
feed dictionary, the selected output layers and the combined
`other_tensors` fetch tail. -/
def evalPrepare (env : LayerEnv) (g : LayerGraphRes)
    (feed : Option (List (Nat × Int))) (other_tensors : List Nat)
    (target_outputs : List Nat) (use_defaults : Bool) :
    Except EvalErr (List (Nat × Int) × List Nat × List Nat) :=
  match feed with
  | none => Except.error EvalErr.typeError
  | some f =>
    let others := g.other_tensors ++ other_tensors
    if ¬ target_outputs = [] ∧
        ¬ target_outputs.filter (fun t => t ∉ g.output_layers) = [] then
      Except.error EvalErr.invalidTargets
    else
      let output_layers :=
        if target_outputs = [] then g.output_layers else target_outputs
      let missing0 := missingDependencies g.deps (f.map Prod.fst) output_layers
      let filled :=
        if use_defaults then evalDefaultFill env g.other_inputs missing0 f
        else (f, missing0, [])
      if ¬ filled.2.2 = [] then Except.error EvalErr.keyErrorOtherInputs
      else if ¬ filled.2.1 = [] then Except.error EvalErr.missingDeps
      else Except.ok (filled.1, output_layers, others)

/-- `LayerGraph.eval(feed, other_tensors, target_outputs, use_defaults)`.
`feed = none` models the default `feed=None` (and any non-dict argument
hits the same `isinstance` check).  On success the fetches are the
selected output layers followed by the combined other tensors, all run
under the final feed; a singleton result with no other tensors is
unwrapped (`result = result[0]`). -/
def layerGraphEval (env : LayerEnv) (g : LayerGraphRes)
    (sess : List (Nat × Int) → Nat → Int)
    (feed : Option (List (Nat × Int))) (other_tensors : List Nat)
    (target_outputs : List Nat) (use_defaults : Bool) :
    Except EvalErr EvalOut :=
  (evalPrepare env g feed other_tensors target_outputs use_defaults).map
    (fun x =>
      match x.2.1, x.2.2 with
      | [o], [] => EvalOut.single (sess x.1 o)
      | outs, others => EvalOut.multi ((outs ++ others).map (sess x.1)))

/-! ## The generic `Graph` container (`tensorx.utils`) -/

/-- Modelled from the spec: the generic graph container `Graph` of
`tensorx.utils` is absent from the sources (only its callers and tests
are present).  Per the spec it is "a directed graph of computation nodes"
that "merges/extends graphs incrementally", carrying in-nodes, out-nodes
and directed edges. -/
structure UGraph where
  in_nodes : List Nat
  out_nodes : List Nat
  edges : List (Nat × Nat)

/-- Modelled from the spec: `Graph.merge(g1, g2)` merges two graphs
incrementally, keeping the in-nodes, out-nodes and edges of both. -/
def UGraph.merge (g1 g2 : UGraph) : UGraph :=
  { in_nodes := g1.in_nodes ++ g2.in_nodes
    out_nodes := g1.out_nodes ++ g2.out_nodes
    edges := g1.edges ++ g2.edges }

/-! ## Sparse arithmetic (`tensorx/math.py`)

A `SparseTensor` stores a list of index tuples, the corresponding stored
values, and a dense shape.  Values are modelled as integers (the sign
logic of the code is what the claim is about).  A dense tensor is a total
function from index tuples to values. -/

/-- The engine's `SparseTensor(indices, values, dense_shape)`. -/
structure SpTensor where
  indices : List (List Nat)
  values : List Int
  dense_shape : List Nat
  deriving Repr

/-- The dense form of a sparse tensor: the stored value at a stored index,
`0` elsewhere. -/
def SpTensor.denseAt (sp : SpTensor) (ix : List Nat) : Int :=
  match (sp.indices.zip sp.values).find? (fun p => p.1 == ix) with
  | some p => p.2
  | none => 0

/-- `array_ops.gather_nd(t, indices)`: the dense values of `t` at each of
the given index tuples. -/
def gather_nd (t : List Nat → Int) (indices : List (List Nat)) : List Int :=
  indices.map t

/-- `sparse_ops.sparse_retain(sp, mask)`: keeps exactly the stored entries
whose mask entry is true. -/
def sparse_retain (sp : SpTensor) (mask : List Bool) : SpTensor :=
  let kept := (((sp.indices.zip sp.values).zip mask).filter Prod.snd).map Prod.fst
  { indices := kept.map Prod.fst
    values := kept.map Prod.snd
    dense_shape := sp.dense_shape }

/-- `sparse_multiply(sp_tensor1, tensor2)` for a dense `tensor2`: gathers
the dense values at the stored indices, multiplies them with the stored
values, and then retains only the entries whose product is strictly
positive (`math_ops.greater(dense_mul, 0.)`). -/
def sparse_multiply (sp : SpTensor) (t : List Nat → Int) : SpTensor :=
  let dense_values := gather_nd t sp.indices
  let dense_mul := sp.values.zipWith (· * ·) dense_values
  let result : SpTensor :=
    { indices := sp.indices, values := dense_mul, dense_shape := sp.dense_shape }
  sparse_retain result (dense_mul.map (fun v => 0 < v))

/-! ## The training loop (`Model.train`)

The loop skeleton: `OnTrain(START)` fires before the protected region, the
whole epoch loop sits inside `try ... except Exception` whose handler only
logs, and `OnTrain(END)` fires after the handler.  Inside an epoch, each
step is wrapped in `try ... except StopIteration: pass`.  The behavior of
the data iterator, of `train_step` and of the registered callbacks is an
oracle: at each step attempt it either yields a loss, signals
`StopIteration`, or raises an arbitrary exception. -/

/-- What one inner-loop body attempt does: `next(epoch_data)` and the
triggers and `train_step` together either complete with a loss, raise
`StopIteration` (from the exhausted iterator), or raise some other
exception `e`. -/
inductive StepOutcome
  | ok (loss : Int)
  | stopIteration
  | exn (e : Nat)
  deriving Repr

/-- Events fired through the scheduler that the claims talk about. -/
inductive TrainEvent
  | trainStart
  | epochStart (n : Nat)
  | stepDone (n : Nat)
  | epochEnd (n : Nat)
  | trainEnd
  deriving DecidableEq, Repr

/-- How the epoch loop can leave the protected `try` region: normal
completion, an uncaught exception reaching `except Exception`, or fuel
exhaustion (the model's stand-in for the loop running forever, as the
inner `except StopIteration: pass` permits when `steps_per_epoch` is
`None`). -/
inductive LoopExit
  | completed
  | raised (e : Nat)
  | fuelOut
  deriving DecidableEq, Repr

/-- The inner step loop of one epoch: runs while `steps_per_epoch` is
`None` or `epoch_step <= steps_per_epoch`; each body attempt consumes the
next oracle outcome; `StopIteration` is swallowed by `pass` (leaving the
counters untouched). -/
def innerLoop (behavior : Nat → StepOutcome) (spe : Option Nat) :
    Nat → Nat → Nat → List TrainEvent → (LoopExit × Nat × List TrainEvent)
  | 0, _, t, tr => (LoopExit.fuelOut, t, tr)
  | fuel + 1, epochStep, t, tr =>
    let continue_ := match spe with
      | none => true
      | some n => epochStep ≤ n
    if continue_ then
      match behavior t with
      | StepOutcome.ok _ =>
        innerLoop behavior spe fuel (epochStep + 1) (t + 1)
          (tr ++ [TrainEvent.stepDone epochStep])
      | StepOutcome.stopIteration => innerLoop behavior spe fuel epochStep (t + 1) tr
      | StepOutcome.exn e => (LoopExit.raised e, t, tr)
    else (LoopExit.completed, t, tr)

/-- The epoch loop of `Model.train`: runs `while epoch.value <= epochs`,
firing `OnEpoch(START)`/`OnEpoch(END)` around the inner loop.  The whole
loop is the region protected by the `try`. -/
def epochLoop (behavior : Nat → StepOutcome) (spe : Option Nat) (epochs : Nat) :
    Nat → Nat → Nat → List TrainEvent → (LoopExit × List TrainEvent)
  | 0, _, _, tr => (LoopExit.fuelOut, tr)
  | fuel + 1, epoch, t, tr =>
    if epoch ≤ epochs then
      let tr₁ := tr ++ [TrainEvent.epochStart epoch]
      match innerLoop behavior spe fuel 1 t tr₁ with
      | (LoopExit.completed, t', tr') =>
        epochLoop behavior spe epochs fuel (epoch + 1) t'
          (tr' ++ [TrainEvent.epochEnd epoch])
      | (LoopExit.raised e, _, tr') => (LoopExit.raised e, tr')
      | (LoopExit.fuelOut, _, tr') => (LoopExit.fuelOut, tr')
    else (LoopExit.completed, tr)

/-- The observable outcome of a call to `Model.train`: the event trace, the
exceptions logged by the `except Exception` handler, and the exception the
call propagates to its caller, if any. -/
structure TrainRun where
  trace : List TrainEvent
  logged : List Nat
  propagated : Option Nat
  deriving Repr

/-- `Model.train(...)`: fires `OnTrain(START)`, runs the epoch loop inside
`try ... except Exception as e: logging.exception(...)`, then fires
`OnTrain(END)`.  Returns `none` when the model's fuel runs out (the real
loop would still be running). -/
def modelTrain (behavior : Nat → StepOutcome) (spe : Option Nat)
    (epochs : Nat) (fuel : Nat) : Option TrainRun :=
  let tr₀ := [TrainEvent.trainStart]
  match epochLoop behavior spe epochs fuel 1 0 tr₀ with
  | (LoopExit.completed, tr) =>
    some { trace := tr ++ [TrainEvent.trainEnd], logged := [], propagated := none }
  | (LoopExit.raised e, tr) =>
    some { trace := tr ++ [TrainEvent.trainEnd], logged := [e], propagated := none }
  | (LoopExit.fuelOut, _) => none

/-! ## Concrete instances used by counterexamples and witnesses -/

/-- A two-output example mirroring `test_multi_output_graph`: layers
`0 = in1`, `1 = in2` (placeholder end nodes), `2 = Add(in1, in2)`,
`3 = Linear(in1)`, `4 = Linear(Add(in1, in2))`. -/
def envShared : LayerEnv :=
  { input_layers := fun l =>
      if l = 2 then [0, 1] else if l = 3 then [0] else if l = 4 then [2] else []
    placeholder := fun l => l == 0 || l == 1
    value := fun _ => none }

/-- The traversal state produced by constructing
`LayerGraph(outputs=[3, 4])` over `envShared`. -/
def c1State : BState := (buildAll envShared 10 [3, 4] initBState).getD initBState

/-- A single-output environment with a default value on layer `0`
(mirroring `test_feed_defaults`): `2 = Add(in1, in2)` with
`in1.value = 5`. -/
def envDefaults : LayerEnv :=
  { input_layers := fun l => if l = 2 then [0, 1] else []
    placeholder := fun l => l == 0 || l == 1
    value := fun l => if l = 0 then some 5 else none }

/-- The graph `LayerGraph(outputs=[2])` over `envDefaults`. -/
def gDefaults : LayerGraphRes :=
  { input_layers := [0, 1], output_layers := [2]
    deps := fun o => if o = 2 then [0, 1] else []
    layers := [2, 0, 1], other_inputs := [], other_tensors := [] }

/-- `gDefaults` extended with layer `1` (which has no default value)
registered as an `other_inputs` layer. -/
def gOtherNoDefault : LayerGraphRes := { gDefaults with other_inputs := [1] }

/-- A session oracle that sums the fed values (only used to exercise the
evaluation plumbing in witnesses). -/
def sessSum : List (Nat × Int) → Nat → Int := fun f n =>
  match f.lookup n with
  | some v => v
  | none => ((f.map Prod.snd).foldl (· + ·) 0)

/-- The sparse tensor `[[ -1 ]]` stored at index `[0]`, used to refute the
dense-equality claim about `sparse_multiply`. -/
def spNeg : SpTensor := { indices := [[0]], values := [-1], dense_shape := [1] }

/-- The all-ones dense tensor. -/
def denseOnes : List Nat → Int := fun _ => 1

/-- The traversal state of the single-output construction
`LayerGraph(outputs=[3])` over `envShared` (it discovers `deps 3 = [0]`). -/
def c23State : BState := (buildAll envShared 10 [3] initBState).getD initBState

/-- A set of layers closed under taking `input_layers` (the shape of the
`visited` set once a traversal has completed). -/
def inputClosed (env : LayerEnv) (s : List Nat) : Prop :=
  ∀ v ∈ s, ∀ w ∈ env.input_layers v, w ∈ s

/-- `gDefaults` with layer `0` (which has default value `5`) registered as
an `other_inputs` layer. -/
def gOtherWithDefault : LayerGraphRes := { gDefaults with other_inputs := [0] }

/-- The update-graph refresh in `Model.run_step` and `Model.eval_step`:
after a train step (`self.train_called`), when an update graph is present,
`g.eval(use_defaults=True, session=self.session)` is called with the
`feed` argument left at its default.  `none` models "no eval call made". -/
def updateGraphRefresh (env : LayerEnv) (sess : List (Nat × Int) → Nat → Int)
    (trainCalled : Bool) (updateGraph : Option LayerGraphRes) :
    Option (Except EvalErr EvalOut) :=
  if trainCalled then
    updateGraph.map (fun g => layerGraphEval env g sess none [] [] true)
  else none

/-! ## Basic facts and helper lemmas -/

theorem Reach.trans {env : LayerEnv} {a b c : Nat}
    (h₁ : Reach env a b) (h₂ : Reach env b c) : Reach env a c := by
  induction h₁ with
  | refl => exact h₂
  | step hmem _ ih => exact Reach.step hmem (ih h₂)

/-- A single `input_layers` edge is a reachability step. -/
theorem Reach.of_input {env : LayerEnv} {a b : Nat}
    (h : b ∈ env.input_layers a) : Reach env a b :=
  Reach.step h (Reach.refl b)

/-- On a successful prepare, `eval` runs the fetches (selected outputs then
other tensors) under the final feed and unwraps a bare singleton. -/
theorem eval_run_of_prepare (env : LayerEnv) (g : LayerGraphRes)
    (sess : List (Nat × Int) → Nat → Int) (feed : Option (List (Nat × Int)))
    (ot tgts : List Nat) (ud : Bool) (ff : List (Nat × Int)) (outs others : List Nat)
    (h : evalPrepare env g feed ot tgts ud = Except.ok (ff, outs, others)) :
    layerGraphEval env g sess feed ot tgts ud =
      Except.ok (if outs.length = 1 ∧ others = [] then EvalOut.single (sess ff outs.headI)
                 else EvalOut.multi ((outs ++ others).map (sess ff))) := by
  unfold layerGraphEval
  rw [h]
  match outs, others with
  | [], [] => simp [Except.map]
  | [o], [] => simp [Except.map]
  | [o], x :: xs => simp [Except.map]
  | a :: b :: t, os => simp [Except.map]
  | [], x :: xs => simp [Except.map]

/-- The selected outputs and the fetch tail of a successful prepare. -/
theorem evalPrepare_ok_shape (env : LayerEnv) (g : LayerGraphRes)
    (f : List (Nat × Int)) (ot tgts : List Nat) (ud : Bool)
    (ff : List (Nat × Int)) (outs others : List Nat)
    (h : evalPrepare env g (some f) ot tgts ud = Except.ok (ff, outs, others)) :
    outs = (if tgts = [] then g.output_layers else tgts) ∧
      others = g.other_tensors ++ ot := by
  unfold evalPrepare at h
  dsimp only at h
  split_ifs at h <;>
    first
      | exact Except.noConfusion h
      | (injection h with h'; injection h' with h1 h2; injection h2 with h3 h4;
         simp_all)

/-- C6: merging two graphs keeps every in-node and out-node of both — the
merged in-nodes (out-nodes) are the union of the arguments', so the
intersection of the merged graph's in-nodes (out-nodes) with either
argument's equals that argument's. -/
theorem graph_merge_extends_both (g1 g2 : UGraph) :
    (∀ x : Nat, x ∈ (g1.merge g2).in_nodes ↔ x ∈ g1.in_nodes ∨ x ∈ g2.in_nodes) ∧
    (∀ x : Nat, x ∈ (g1.merge g2).out_nodes ↔ x ∈ g1.out_nodes ∨ x ∈ g2.out_nodes) ∧
    (∀ x : Nat, (x ∈ (g1.merge g2).in_nodes ∧ x ∈ g1.in_nodes) ↔ x ∈ g1.in_nodes) ∧
    (∀ x : Nat, (x ∈ (g1.merge g2).out_nodes ∧ x ∈ g1.out_nodes) ↔ x ∈ g1.out_nodes) ∧
    (∀ x : Nat, (x ∈ (g1.merge g2).in_nodes ∧ x ∈ g2.in_nodes) ↔ x ∈ g2.in_nodes) ∧
    (∀ x : Nat, (x ∈ (g1.merge g2).out_nodes ∧ x ∈ g2.out_nodes) ↔ x ∈ g2.out_nodes) := by
  refine ⟨fun x => ?_, fun x => ?_, fun x => ?_, fun x => ?_, fun x => ?_, fun x => ?_⟩ <;>
    simp [UGraph.merge, List.mem_append] <;> tauto

/-- C8: `eval` raises `TypeError` whenever its feed is not a dictionary —
in particular for the default `feed=None`, before anything is fed or run —
so the update-graph refresh of `Model.run_step`/`Model.eval_step`, which
calls `eval` without a feed after a train step, always raises `TypeError`
when an update graph is present. -/
theorem eval_feed_none_raises_typeerror :
    (∀ (env : LayerEnv) (g : LayerGraphRes) (sess : List (Nat × Int) → Nat → Int)
        (ot tgts : List Nat) (ud : Bool),
        layerGraphEval env g sess none ot tgts ud = Except.error EvalErr.typeError) ∧
    (∀ (env : LayerEnv) (sess : List (Nat × Int) → Nat → Int) (g : LayerGraphRes),
        updateGraphRefresh env sess true (some g) =
          some (Except.error EvalErr.typeError)) := by
  exact ⟨fun env g sess ot tgts ud => rfl, fun env sess g => rfl⟩

/-- C9: a successful `eval` returns the bare single fetched result exactly
when exactly one output layer is fetched and the combined other-tensor
list is empty; in every other case it returns the list of output results,
in order, followed by the other-tensor results. -/
theorem eval_singleton_unwrap (env : LayerEnv) (g : LayerGraphRes)
    (sess : List (Nat × Int) → Nat → Int) (f : List (Nat × Int))
    (ot tgts : List Nat) (ud : Bool) (ff : List (Nat × Int)) (outs others : List Nat)
    (h : evalPrepare env g (some f) ot tgts ud = Except.ok (ff, outs, others)) :
    layerGraphEval env g sess (some f) ot tgts ud =
      Except.ok (if outs.length = 1 ∧ others = [] then EvalOut.single (sess ff outs.headI)
                 else EvalOut.multi ((outs ++ others).map (sess ff))) :=
  eval_run_of_prepare env g sess (some f) ot tgts ud ff outs others h

/-- Witness for `eval_singleton_unwrap`: on the `test_feed_defaults` graph,
feeding layer `1` and defaulting layer `0` fetches the single output `2`
and unwraps it. -/
theorem eval_singleton_unwrap_witness :
    layerGraphEval envDefaults gDefaults sessSum (some [(1, 7)]) [] [] true =
      Except.ok (EvalOut.single 12) := by
  have h := eval_singleton_unwrap envDefaults gDefaults sessSum [(1, 7)] [] [] true
    [(0, 5), (1, 7)] [2] [] rfl
  rw [h]; rfl

/-- C5: with a non-empty `target_outputs`, `eval` raises `ValueError` when
some target is not among the graph's output layers; otherwise it fetches
exactly the targets, in the order given, followed by the stored
`other_tensors` and then the ones passed to `eval`, returning the results
in that order. -/
theorem eval_target_outputs_subset (env : LayerEnv) (g : LayerGraphRes)
    (sess : List (Nat × Int) → Nat → Int) (f : List (Nat × Int))
    (ot tgts : List Nat) (ud : Bool) (hne : ¬ tgts = []) :
    ((∃ t ∈ tgts, t ∉ g.output_layers) →
        layerGraphEval env g sess (some f) ot tgts ud =
          Except.error EvalErr.invalidTargets) ∧
    (∀ (ff : List (Nat × Int)) (outs others : List Nat),
        evalPrepare env g (some f) ot tgts ud = Except.ok (ff, outs, others) →
        outs = tgts ∧ others = g.other_tensors ++ ot ∧
        layerGraphEval env g sess (some f) ot tgts ud =
          Except.ok (if tgts.length = 1 ∧ g.other_tensors ++ ot = []
                     then EvalOut.single (sess ff tgts.headI)
                     else EvalOut.multi ((tgts ++ (g.other_tensors ++ ot)).map (sess ff)))) := by
  constructor
  · rintro ⟨t, ht, hnot⟩
    have hfil : ¬ tgts.filter (fun t => t ∉ g.output_layers) = [] := by
      intro hcon
      rw [List.filter_eq_nil_iff] at hcon
      exact (hcon t ht) (by simpa using hnot)
    unfold layerGraphEval evalPrepare
    simp only [hne, hfil, not_false_iff, true_and, if_pos, and_self]
    rfl
  · intro ff outs others h
    have hshape := evalPrepare_ok_shape env g f ot tgts ud ff outs others h
    rw [if_neg hne] at hshape
    obtain ⟨houts, hothers⟩ := hshape
    refine ⟨houts, hothers, ?_⟩
    have hrun := eval_run_of_prepare env g sess (some f) ot tgts ud ff outs others h
    rw [houts, hothers] at hrun
    exact hrun

/-- Witness for `eval_target_outputs_subset`: requesting target `[2]` on
the `test_feed_defaults` graph fetches exactly that output. -/
theorem eval_target_outputs_subset_witness :
    layerGraphEval envDefaults gDefaults sessSum (some [(1, 7)]) [] [2] true =
      Except.ok (EvalOut.single 12) := by
  have h := (eval_target_outputs_subset envDefaults gDefaults sessSum [(1, 7)] [] [2] true
    (by decide)).2 [(0, 5), (1, 7)] [2] [] rfl
  rw [h.2.2]; rfl

/-- C10: whatever the data iterator, `train_step` and the callbacks do, a
returning `Model.train` call propagates no exception, its trace ends with
`OnTrain(END)`, and any exception that escaped the epoch loop was caught
and logged by the `except Exception` handler. -/
theorem train_loop_catches_exceptions :
    ∀ (behavior : Nat → StepOutcome) (spe : Option Nat) (epochs fuel : Nat)
      (r : TrainRun),
      modelTrain behavior spe epochs fuel = some r →
      r.propagated = none ∧
      r.trace.getLast? = some TrainEvent.trainEnd ∧
      (∀ (e : Nat) (tr : List TrainEvent),
        epochLoop behavior spe epochs fuel 1 0 [TrainEvent.trainStart] =
          (LoopExit.raised e, tr) → e ∈ r.logged) := by
  intro behavior spe epochs fuel r h
  unfold modelTrain at h
  dsimp only at h
  rcases heq : epochLoop behavior spe epochs fuel 1 0 [TrainEvent.trainStart]
    with ⟨grade, tr⟩
  rw [heq] at h
  cases grade with
  | completed =>
    injection h with h'
    subst h'
    refine ⟨rfl, List.getLast?_concat tr, ?_⟩
    intro e tr' hcon
    simp at hcon
  | raised e₀ =>
    injection h with h'
    subst h'
    refine ⟨rfl, List.getLast?_concat tr, ?_⟩
    intro e tr' hcon
    have he : e₀ = e := by
      have h1 := congrArg Prod.fst hcon
      simpa using h1
    subst he
    exact List.mem_singleton.mpr rfl
  | fuelOut => exact Option.noConfusion h

/-- Witness for `train_loop_catches_exceptions`: a behavior whose first
step raises exception `42` yields a run that logs it, fires
`OnTrain(END)` last, and propagates nothing. -/
theorem train_loop_catches_exceptions_witness :
    modelTrain (fun _ => StepOutcome.exn 42) (some 1) 1 10 =
      some { trace := [TrainEvent.trainStart, TrainEvent.epochStart 1,
                       TrainEvent.trainEnd],
             logged := [42], propagated := none } ∧
    ({ trace := [TrainEvent.trainStart, TrainEvent.epochStart 1,
                 TrainEvent.trainEnd],
       logged := [42], propagated := none } : TrainRun).propagated = none ∧
    42 ∈ ({ trace := [TrainEvent.trainStart, TrainEvent.epochStart 1,
                      TrainEvent.trainEnd],
            logged := [42], propagated := none } : TrainRun).logged := by
  have h := train_loop_catches_exceptions (fun _ => StepOutcome.exn 42) (some 1) 1 10
    { trace := [TrainEvent.trainStart, TrainEvent.epochStart 1, TrainEvent.trainEnd],
      logged := [42], propagated := none } rfl
  exact ⟨rfl, h.1, h.2.2 42 [TrainEvent.trainStart, TrainEvent.epochStart 1] rfl⟩

/-- C1 counterexample: in the two-output construction `[3, 4]` over
`envShared`, layer `0` is a placeholder end node reachable from output
`4` (via `4 → 2 → 0`), yet `dependencies[4]` does not contain it (the
shared `visited` set assigned it to output `3`, which was traversed
first). -/
theorem layergraph_deps_misses_shared_leaf :
    buildAll envShared 10 [3, 4] initBState = some c1State ∧
    Reach envShared 4 0 ∧
    envShared.isEndNode 0 = true ∧
    0 ∉ c1State.deps 4 ∧
    0 ∈ c1State.deps 3 := by
  refine ⟨rfl, ?_, by decide, by decide, by decide⟩
  exact Reach.step (show 2 ∈ envShared.input_layers 4 by decide)
    (Reach.step (show 0 ∈ envShared.input_layers 2 by decide) (Reach.refl 0))

/-- C4 (bug exhibit): layer `1` has no default value and is registered in
`other_inputs` of `gOtherNoDefault`; even though it is present in the
feed, `eval` with `use_defaults=True` raises — and the raise is the
`KeyError` produced by the malformed `str.format` call, not the intended
`ValueError`.  Moreover, a fed `other_inputs` layer that does have a
default (`0`: default `5`, fed `100`) has its fed value overwritten by
the default in the final feed handed to `session.run`. -/
theorem eval_other_inputs_bug :
    layerGraphEval envDefaults gOtherNoDefault sessSum (some [(1, 7)]) [] [] true =
      Except.error EvalErr.keyErrorOtherInputs ∧
    (evalPrepare envDefaults gOtherWithDefault (some [(0, 100), (1, 7)]) [] [] true).map
        (fun x => x.1.lookup 0) = Except.ok (some 5) :=
  ⟨rfl, rfl⟩

/-- C7 counterexample: multiplying the sparse tensor with stored value
`-1` at index `[0]` by the all-ones dense tensor yields a sparse tensor
whose dense form is `0` at `[0]`, while the element-wise product of the
dense forms is `-1` there: the `sparse_retain` step drops every entry
whose product is not strictly positive. -/
theorem sparse_multiply_drops_negative :
    (sparse_multiply spNeg denseOnes).denseAt [0] = 0 ∧
    spNeg.denseAt [0] * denseOnes [0] = -1 ∧
    ¬ (sparse_multiply spNeg denseOnes).denseAt [0] =
        spNeg.denseAt [0] * denseOnes [0] := by
  refine ⟨rfl, rfl, by decide⟩

/-- Filtering a list zipped with a boolean image of itself is plain
filtering: this is how `sparse_retain` composes with the mask
`dense_mul > 0`. -/
theorem zip_mask_filter {β : Type} (f : β → Bool) :
    ∀ l : List β, (((l.zip (l.map f)).filter Prod.snd).map Prod.fst) = l.filter f := by
  intro l
  induction l with
  | nil => rfl
  | cons a as ih =>
    by_cases h : f a <;> simp [List.filter_cons, h, ih]

/-- Zipping indices against the products `values * gathered` is mapping the
product over the zipped entries. -/
theorem zip_zipWith_mul (t : List Nat → Int) :
    ∀ (is : List (List Nat)) (vs : List Int), vs.length = is.length →
      is.zip (vs.zipWith (· * ·) (is.map t)) =
        (is.zip vs).map (fun p => (p.1, p.2 * t p.1)) := by
  intro is
  induction is with
  | nil => intro vs _; simp
  | cons i it ih =>
    intro vs h
    cases vs with
    | nil => simp at h
    | cons v vt =>
      simp only [List.map_cons, List.zipWith_cons_cons, List.zip_cons_cons]
      rw [ih vt (by simpa using h)]

/-- The dense form is the first stored entry at the index, `0` if none. -/
theorem denseAt_eq_find (sp : SpTensor) (ix : List Nat) :
    sp.denseAt ix =
      ((sp.indices.zip sp.values).find? (fun p => p.1 == ix)).elim 0 Prod.snd := by
  unfold SpTensor.denseAt
  cases h : (sp.indices.zip sp.values).find? (fun p => p.1 == ix) <;> simp [h]

/-- The stored entries of `sparse_retain` are the mask-filtered entries. -/
theorem retain_entries (sp : SpTensor) (mask : List Bool) :
    (sparse_retain sp mask).indices.zip (sparse_retain sp mask).values =
      (((sp.indices.zip sp.values).zip mask).filter Prod.snd).map Prod.fst := by
  unfold sparse_retain
  dsimp only
  exact (List.zip_of_prod rfl rfl).symm

/-- Looking up an index in the positively-filtered products of an entry
list with distinct indices yields the clamped product of the lookup. -/
theorem find_clamped_mul (t : List Nat → Int) (ix : List Nat) :
    ∀ e : List (List Nat × Int), (e.map Prod.fst).Nodup →
      ((((e.map (fun p => (p.1, p.2 * t p.1))).filter
          (fun p => decide (0 < p.2))).find? (fun p => p.1 == ix)).elim 0 Prod.snd) =
        (if 0 < ((e.find? (fun p => p.1 == ix)).elim 0 Prod.snd) * t ix
         then ((e.find? (fun p => p.1 == ix)).elim 0 Prod.snd) * t ix else 0) := by
  intro e
  induction e with
  | nil => simp
  | cons hd tl ih =>
    intro hnd
    rw [List.map_cons] at hnd
    have hcons := List.nodup_cons.mp hnd
    have hni := hcons.1
    have hndtl := hcons.2
    by_cases hix : hd.1 = ix
    · subst hix
      by_cases hpos : 0 < hd.2 * t hd.1
      · rw [List.map_cons, List.filter_cons, if_pos (by simpa using hpos),
          List.find?_cons_of_pos _ (by simp), List.find?_cons_of_pos _ (by simp)]
        simp [hpos]
      · have hnone : ((tl.map (fun p => (p.1, p.2 * t p.1))).filter
            (fun p => decide (0 < p.2))).find? (fun p => p.1 == hd.1) = none := by
          rw [List.find?_eq_none]
          intro x hx hbeq
          have hx1 : x.1 = hd.1 := by simpa using hbeq
          have hmem : x ∈ tl.map (fun p => (p.1, p.2 * t p.1)) :=
            (List.mem_filter.mp hx).1
          rcases List.mem_map.mp hmem with ⟨p, hp, rfl⟩
          exact hni (hx1 ▸ List.mem_map.mpr ⟨p, hp, rfl⟩)
        rw [List.map_cons, List.filter_cons, if_neg (by simpa using hpos), hnone,
          List.find?_cons_of_pos _ (by simp)]
        simp [hpos]
    · have hbeq : (hd.1 == ix) = false := by simpa using hix
      have hstep : ((((hd :: tl).map (fun p => (p.1, p.2 * t p.1))).filter
          (fun p => decide (0 < p.2))).find? (fun p => p.1 == ix)) =
          (((tl.map (fun p => (p.1, p.2 * t p.1))).filter
            (fun p => decide (0 < p.2))).find? (fun p => p.1 == ix)) := by
        rw [List.map_cons, List.filter_cons]
        by_cases hpos : 0 < hd.2 * t hd.1
        · rw [if_pos (by simpa using hpos), List.find?_cons_of_neg _ (by simpa using hix)]
        · rw [if_neg (by simpa using hpos)]
      rw [hstep, ih hndtl, List.find?_cons_of_neg _ (by simp [hbeq])]

/-- C7 (amended): for a well-formed sparse tensor (as many values as
indices, distinct indices), the dense form of `sparse_multiply sp t` at
every index equals the element-wise product of the dense forms of `sp`
and `t` when that product is strictly positive, and `0` otherwise — the
`sparse_retain(dense_mul > 0)` step drops all non-positive products, so
the claimed dense-form equality holds only where the product is not
negative. -/
theorem sparse_multiply_dense_clamped (sp : SpTensor) (t : List Nat → Int)
    (hlen : sp.values.length = sp.indices.length) (hnd : sp.indices.Nodup)
    (ix : List Nat) :
    (sparse_multiply sp t).denseAt ix =
      if 0 < sp.denseAt ix * t ix then sp.denseAt ix * t ix else 0 := by
  have hdm : (sp.values.zipWith (· * ·) (sp.indices.map t)).length =
      sp.indices.length := by
    simp [hlen]
  have hzip := zip_zipWith_mul t sp.indices sp.values hlen
  have hmask : (sp.values.zipWith (· * ·) (sp.indices.map t)).map
        (fun v => decide (0 < v)) =
      (sp.indices.zip (sp.values.zipWith (· * ·) (sp.indices.map t))).map
        (fun p => decide (0 < p.2)) := by
    conv_lhs => rw [← List.map_snd_zip sp.indices
      (sp.values.zipWith (· * ·) (sp.indices.map t)) hdm.le]
    rw [List.map_map]
    rfl
  have hsm : sparse_multiply sp t =
      sparse_retain
        { indices := sp.indices,
          values := sp.values.zipWith (· * ·) (sp.indices.map t),
          dense_shape := sp.dense_shape }
        ((sp.values.zipWith (· * ·) (sp.indices.map t)).map
          (fun v => decide (0 < v))) := rfl
  have hfst : (sp.indices.zip sp.values).map Prod.fst = sp.indices :=
    List.map_fst_zip sp.indices sp.values hlen.ge
  rw [denseAt_eq_find, denseAt_eq_find, hsm, retain_entries]
  dsimp only
  rw [hmask, zip_mask_filter, hzip]
  exact find_clamped_mul t ix (sp.indices.zip sp.values) (by rw [hfst]; exact hnd)

/-- Witness for `sparse_multiply_dense_clamped` at the concrete negative
example. -/
theorem sparse_multiply_dense_clamped_witness :
    spNeg.values.length = spNeg.indices.length ∧ spNeg.indices.Nodup ∧
    (sparse_multiply spNeg denseOnes).denseAt [0] =
      (if 0 < spNeg.denseAt [0] * denseOnes [0]
       then spNeg.denseAt [0] * denseOnes [0] else 0) :=
  ⟨rfl, by decide, sparse_multiply_dense_clamped spNeg denseOnes rfl (by decide) [0]⟩

/-- The missing-dependency check of `__init__` passes exactly when the
supplied inputs are empty or cover every discovered dependency. -/
theorem initMissingDep_eq_nil_iff (deps : Nat → List Nat) (inputs outputs : List Nat) :
    initMissingDep deps inputs outputs = [] ↔
      (inputs = [] ∨ ∀ o ∈ outputs, ∀ d ∈ deps o, d ∈ inputs) := by
  unfold initMissingDep
  by_cases h : inputs = []
  · simp [h]
  · rw [if_neg h]
    simp [List.filter_eq_nil_iff, List.mem_map, h]

/-- Membership in `all_dependencies` is being a discovered dependency of
some output. -/
theorem mem_allDependencies (deps : Nat → List Nat) (outputs : List Nat) (l : Nat) :
    l ∈ allDependencies deps outputs ↔ ∃ o ∈ outputs, l ∈ deps o := by
  unfold allDependencies
  simp [List.mem_flatten, List.mem_map]

/-- Unfolded form of the constructor once the traversal state is known. -/
theorem layerGraphInit_eq (env : LayerEnv) (fuel : Nat)
    (outputs inputs ot oi : List Nat) (st : BState)
    (hst : buildAll env fuel outputs initBState = some st) :
    layerGraphInit env fuel outputs inputs ot oi =
      some (if ¬ initMissingDep st.deps inputs outputs = [] then
          Except.error InitError.missingDeps
        else if ¬ inputs.filter (fun i => i ∉ allDependencies st.deps outputs) = [] then
          Except.error InitError.unusedInputs
        else Except.ok
          { input_layers :=
              if inputs = [] then (allDependencies st.deps outputs).dedup else inputs
            output_layers := outputs, deps := st.deps, layers := st.visited
            other_inputs := oi, other_tensors := ot }) := by
  unfold layerGraphInit
  rw [hst]

/-- C2: with a non-empty supplied inputs list, a discovered dependency of
some output that is not among the inputs makes the constructor raise the
missing-dependencies `ValueError`; with empty (or `None`) inputs the
missing-dependency check never raises, construction succeeds, and the
graph's `input_layers` become exactly the set of discovered
dependencies. -/
theorem init_missing_inputs_check (env : LayerEnv) (fuel : Nat)
    (outputs inputs ot oi : List Nat) (st : BState)
    (hst : buildAll env fuel outputs initBState = some st) :
    ((¬ inputs = [] ∧ ∃ o ∈ outputs, ∃ d ∈ st.deps o, d ∉ inputs) →
        layerGraphInit env fuel outputs inputs ot oi =
          some (Except.error InitError.missingDeps)) ∧
    (inputs = [] →
        ∃ g, layerGraphInit env fuel outputs inputs ot oi = some (Except.ok g) ∧
          ∀ l, l ∈ g.input_layers ↔ ∃ o ∈ outputs, l ∈ st.deps o) := by
  rw [layerGraphInit_eq env fuel outputs inputs ot oi st hst]
  constructor
  · rintro ⟨hne, o, ho, d, hd, hdnot⟩
    have hmiss : ¬ initMissingDep st.deps inputs outputs = [] := by
      rw [initMissingDep_eq_nil_iff]
      push_neg
      exact ⟨hne, o, ho, d, hd, hdnot⟩
    rw [if_pos hmiss]
  · intro hins
    subst hins
    have hmiss : initMissingDep st.deps [] outputs = [] := by
      rw [initMissingDep_eq_nil_iff]; left; rfl
    rw [if_neg (by simp [hmiss]), if_neg (by simp), if_pos rfl]
    refine ⟨_, rfl, ?_⟩
    intro l
    dsimp only
    rw [List.mem_dedup, mem_allDependencies]

/-- C3: a supplied input that is a discovered dependency of no output
makes the constructor raise (the unused-inputs `ValueError` when no
dependency is missing); conversely, when every supplied input is a
discovered dependency of some output and no dependency is missing,
construction succeeds. -/
theorem init_unused_inputs_check (env : LayerEnv) (fuel : Nat)
    (outputs inputs ot oi : List Nat) (st : BState)
    (hst : buildAll env fuel outputs initBState = some st) :
    ((∃ i ∈ inputs, ∀ o ∈ outputs, i ∉ st.deps o) →
        (∃ e, layerGraphInit env fuel outputs inputs ot oi =
            some (Except.error e)) ∧
        ((∀ o ∈ outputs, ∀ d ∈ st.deps o, d ∈ inputs) →
          layerGraphInit env fuel outputs inputs ot oi =
            some (Except.error InitError.unusedInputs))) ∧
    ((∀ i ∈ inputs, ∃ o ∈ outputs, i ∈ st.deps o) →
      (inputs = [] ∨ ∀ o ∈ outputs, ∀ d ∈ st.deps o, d ∈ inputs) →
        ∃ g, layerGraphInit env fuel outputs inputs ot oi =
          some (Except.ok g)) := by
  rw [layerGraphInit_eq env fuel outputs inputs ot oi st hst]
  constructor
  · rintro ⟨i, hi, hnotdep⟩
    have hunused :
        ¬ inputs.filter (fun i => i ∉ allDependencies st.deps outputs) = [] := by
      rw [List.filter_eq_nil_iff]
      push_neg
      refine ⟨i, hi, ?_⟩
      simp only [decide_eq_true_eq]
      rw [mem_allDependencies]
      push_neg
      exact hnotdep
    constructor
    · by_cases hmiss : initMissingDep st.deps inputs outputs = []
      · rw [if_neg (by simp [hmiss]), if_pos hunused]
        exact ⟨InitError.unusedInputs, rfl⟩
      · rw [if_pos hmiss]
        exact ⟨InitError.missingDeps, rfl⟩
    · intro hcov
      have hmiss : initMissingDep st.deps inputs outputs = [] := by
        rw [initMissingDep_eq_nil_iff]; right; exact hcov
      rw [if_neg (by simp [hmiss]), if_pos hunused]
  · intro hused hcov
    have hmiss : initMissingDep st.deps inputs outputs = [] := by
      rw [initMissingDep_eq_nil_iff]; exact hcov
    have hunused :
        inputs.filter (fun i => i ∉ allDependencies st.deps outputs) = [] := by
      rw [List.filter_eq_nil_iff]
      intro i hi
      simp only [decide_eq_true_eq, not_not]
      rw [mem_allDependencies]
      exact hused i hi
    rw [if_neg (by simp [hmiss]), if_neg (not_not.mpr hunused)]
    exact ⟨_, rfl⟩

/-- Witness for `init_missing_inputs_check`: supplying only `in2` to
`LayerGraph(outputs=[3])` (whose discovered dependency is `in1 = 0`)
raises the missing-dependencies error, while supplying no inputs
succeeds. -/
theorem init_missing_inputs_check_witness :
    layerGraphInit envShared 10 [3] [1] [] [] =
      some (Except.error InitError.missingDeps) ∧
    ∃ g, layerGraphInit envShared 10 [3] [] [] [] = some (Except.ok g) ∧
      ∀ l, l ∈ g.input_layers ↔ ∃ o ∈ [3], l ∈ c23State.deps o := by
  constructor
  · exact (init_missing_inputs_check envShared 10 [3] [1] [] [] c23State rfl).1
      (by decide)
  · exact (init_missing_inputs_check envShared 10 [3] [] [] [] c23State rfl).2 rfl

/-- Witness for `init_unused_inputs_check`: supplying `[in1, in2]` to
`LayerGraph(outputs=[3])` raises the unused-inputs error for `in2`, and
supplying exactly `[in1]` succeeds. -/
theorem init_unused_inputs_check_witness :
    layerGraphInit envShared 10 [3] [0, 1] [] [] =
      some (Except.error InitError.unusedInputs) ∧
    ∃ g, layerGraphInit envShared 10 [3] [0] [] [] = some (Except.ok g) := by
  constructor
  · exact ((init_unused_inputs_check envShared 10 [3] [0, 1] [] [] c23State rfl).1
      (by decide)).2 (by decide)
  · exact (init_unused_inputs_check envShared 10 [3] [0] [] [] c23State rfl).2
      (by decide) (by decide)

/-- Membership after the `to_visit` append loop: an element is queued
afterwards iff it was already queued or is an unvisited input. -/
theorem enqueueInputs_mem (visited : List Nat) :
    ∀ (ins q : List Nat) (x : Nat),
      x ∈ enqueueInputs visited ins q ↔ x ∈ q ∨ (x ∈ ins ∧ x ∉ visited) := by
  intro ins
  induction ins with
  | nil => intro q x; simp [enqueueInputs]
  | cons i it ih =>
    intro q x
    unfold enqueueInputs
    rw [List.foldl_cons]
    by_cases hi : i ∈ visited ∨ i ∈ q
    · rw [if_pos hi]
      rw [show List.foldl _ q it = enqueueInputs visited it q from rfl, ih]
      constructor
      · rintro (hq | ⟨hit, hnv⟩)
        · exact Or.inl hq
        · exact Or.inr ⟨List.mem_cons_of_mem i hit, hnv⟩
      · rintro (hq | ⟨hmem, hnv⟩)
        · exact Or.inl hq
        · rcases List.mem_cons.mp hmem with rfl | hit
          · rcases hi with hv | hq'
            · exact absurd hv hnv
            · exact Or.inl hq'
          · exact Or.inr ⟨hit, hnv⟩
    · rw [if_neg hi]
      rw [show List.foldl _ (q ++ [i]) it = enqueueInputs visited it (q ++ [i]) from rfl,
        ih]
      push_neg at hi
      constructor
      · rintro (hq | ⟨hit, hnv⟩)
        · rcases List.mem_append.mp hq with hq | hsing
          · exact Or.inl hq
          · rcases List.mem_singleton.mp hsing with rfl
            exact Or.inr ⟨List.mem_cons_self _ _, hi.1⟩
        · exact Or.inr ⟨List.mem_cons_of_mem i hit, hnv⟩
      · rintro (hq | ⟨hmem, hnv⟩)
        · exact Or.inl (List.mem_append.mpr (Or.inl hq))
        · rcases List.mem_cons.mp hmem with rfl | hit
          · exact Or.inl (List.mem_append.mpr (Or.inr (List.mem_singleton.mpr rfl)))
          · exact Or.inr ⟨hit, hnv⟩

/-- Everything reachable from a member of an input-closed set stays in the
set. -/
theorem inputClosed_reach {env : LayerEnv} {s : List Nat}
    (hc : inputClosed env s) {v x : Nat} (hv : v ∈ s) (hr : Reach env v x) :
    x ∈ s := by
  induction hr with
  | refl => exact hv
  | step hmem _ ih => exact ih (hc _ hv _ hmem)

/-- Unfolding: an empty worklist returns the state unchanged. -/
theorem bfsStep_nil (env : LayerEnv) (out fuel : Nat) (st : BState) :
    bfsStep env out fuel st [] = some st := by
  cases fuel <;> rfl

/-- Unfolding: a visited head is skipped. -/
theorem bfsStep_cons_visited (env : LayerEnv) (out fuel : Nat) (st : BState)
    (cur : Nat) (rest : List Nat) (h : cur ∈ st.visited) :
    bfsStep env out (fuel + 1) st (cur :: rest) = bfsStep env out fuel st rest := by
  simp only [bfsStep]
  rw [if_pos h]

/-- Unfolding: an unvisited head is visited, possibly recorded as an end
node, its edges added, and its fresh inputs queued. -/
theorem bfsStep_cons_new (env : LayerEnv) (out fuel : Nat) (st : BState)
    (cur : Nat) (rest : List Nat) (h : cur ∉ st.visited) :
    bfsStep env out (fuel + 1) st (cur :: rest) =
      bfsStep env out fuel
        { visited := cur :: st.visited
          deps := fun o =>
            if o = out ∧ env.isEndNode cur ∧ cur ∉ st.deps out
            then st.deps out ++ [cur] else st.deps o
          edges := st.edges ++ (env.input_layers cur).map (fun i => (i, cur)) }
        (enqueueInputs (cur :: st.visited) (env.input_layers cur) rest) := by
  simp only [bfsStep]
  rw [if_neg h]

/-- Worklist invariant for a single `build_graph` run: starting from a
state whose `visited` frontier is covered by the queue, the completed run
visits a closed set covering the queue, only adds layers reachable from
`out`, and extends `dependencies[out]` with exactly the newly visited end
nodes. -/
theorem bfsStep_invariant (env : LayerEnv) (out : Nat) (V : List Nat)
    (deps₀ : Nat → List Nat) :
    ∀ (fuel : Nat) (q : List Nat) (st st' : BState),
      bfsStep env out fuel st q = some st' →
      (∀ v ∈ st.visited, ∀ w ∈ env.input_layers v, w ∈ st.visited ∨ w ∈ q) →
      (∀ x ∈ q, Reach env out x) →
      (∀ x ∈ st.visited, x ∈ V ∨ Reach env out x) →
      (∀ x ∈ V, x ∈ st.visited) →
      (∀ l, l ∈ st.deps out ↔ l ∈ deps₀ out ∨
        (env.isEndNode l = true ∧ l ∈ st.visited ∧ l ∉ V)) →
      (∀ o, ¬ o = out → st.deps o = deps₀ o) →
      (∀ v ∈ st'.visited, ∀ w ∈ env.input_layers v, w ∈ st'.visited) ∧
      (∀ x ∈ st'.visited, x ∈ V ∨ Reach env out x) ∧
      (∀ x ∈ st.visited, x ∈ st'.visited) ∧
      (∀ x ∈ q, x ∈ st'.visited) ∧
      (∀ l, l ∈ st'.deps out ↔ l ∈ deps₀ out ∨
        (env.isEndNode l = true ∧ l ∈ st'.visited ∧ l ∉ V)) ∧
      (∀ o, ¬ o = out → st'.deps o = deps₀ o) := by
  intro fuel
  induction fuel with
  | zero =>
    intro q st st' h hfr hqr hsnd hV hdep hother
    cases q with
    | nil =>
      rw [bfsStep_nil] at h
      injection h with h'
      subst h'
      refine ⟨?_, hsnd, fun x hx => hx, fun x hx => absurd hx (List.not_mem_nil x),
        hdep, hother⟩
      intro v hv w hw
      rcases hfr v hv w hw with h1 | h1
      · exact h1
      · exact absurd h1 (List.not_mem_nil w)
    | cons c cs => exact Option.noConfusion h
  | succ fuel ih =>
    intro q st st' h hfr hqr hsnd hV hdep hother
    cases q with
    | nil =>
      rw [bfsStep_nil] at h
      injection h with h'
      subst h'
      refine ⟨?_, hsnd, fun x hx => hx, fun x hx => absurd hx (List.not_mem_nil x),
        hdep, hother⟩
      intro v hv w hw
      rcases hfr v hv w hw with h1 | h1
      · exact h1
      · exact absurd h1 (List.not_mem_nil w)
    | cons cur rest =>
      by_cases hvis : cur ∈ st.visited
      · rw [bfsStep_cons_visited env out fuel st cur rest hvis] at h
        have hfr' : ∀ v ∈ st.visited, ∀ w ∈ env.input_layers v,
            w ∈ st.visited ∨ w ∈ rest := by
          intro v hv w hw
          rcases hfr v hv w hw with h1 | h1
          · exact Or.inl h1
          · rcases List.mem_cons.mp h1 with rfl | h2
            · exact Or.inl hvis
            · exact Or.inr h2
        have hqr' : ∀ x ∈ rest, Reach env out x := fun x hx =>
          hqr x (List.mem_cons_of_mem _ hx)
        obtain ⟨c1, c2, c3, c4, c5, c6⟩ :=
          ih rest st st' h hfr' hqr' hsnd hV hdep hother
        refine ⟨c1, c2, c3, ?_, c5, c6⟩
        intro x hx
        rcases List.mem_cons.mp hx with rfl | hx'
        · exact c3 x hvis
        · exact c4 x hx'
      · rw [bfsStep_cons_new env out fuel st cur rest hvis] at h
        have hcur_reach : Reach env out cur := hqr cur (List.mem_cons_self _ _)
        have hcurV : cur ∉ V := fun hc => hvis (hV cur hc)
        have hfr₁ : ∀ v ∈ cur :: st.visited, ∀ w ∈ env.input_layers v,
            w ∈ cur :: st.visited ∨
              w ∈ enqueueInputs (cur :: st.visited) (env.input_layers cur) rest := by
          intro v hv w hw
          rcases List.mem_cons.mp hv with hveq | hv'
          · subst hveq
            by_cases hwv : w ∈ v :: st.visited
            · exact Or.inl hwv
            · right
              rw [enqueueInputs_mem]
              exact Or.inr ⟨hw, hwv⟩
          · rcases hfr v hv' w hw with h1 | h1
            · exact Or.inl (List.mem_cons_of_mem _ h1)
            · rcases List.mem_cons.mp h1 with rfl | h2
              · exact Or.inl (List.mem_cons_self _ _)
              · right
                rw [enqueueInputs_mem]
                exact Or.inl h2
        have hqr₁ : ∀ x ∈ enqueueInputs (cur :: st.visited) (env.input_layers cur) rest,
            Reach env out x := by
          intro x hx
          rw [enqueueInputs_mem] at hx
          rcases hx with hx | ⟨hxin, _⟩
          · exact hqr x (List.mem_cons_of_mem _ hx)
          · exact Reach.trans hcur_reach (Reach.of_input hxin)
        have hsnd₁ : ∀ x ∈ cur :: st.visited, x ∈ V ∨ Reach env out x := by
          intro x hx
          rcases List.mem_cons.mp hx with rfl | hx'
          · exact Or.inr hcur_reach
          · exact hsnd x hx'
        have hV₁ : ∀ x ∈ V, x ∈ cur :: st.visited := fun x hx =>
          List.mem_cons_of_mem _ (hV x hx)
        have hdep₁ : ∀ l,
            l ∈ (if out = out ∧ env.isEndNode cur ∧ cur ∉ st.deps out
                 then st.deps out ++ [cur] else st.deps out) ↔
              l ∈ deps₀ out ∨
                (env.isEndNode l = true ∧ l ∈ cur :: st.visited ∧ l ∉ V) := by
          intro l
          by_cases hend : env.isEndNode cur = true
          · by_cases hcd : cur ∈ st.deps out
            · rw [if_neg (by simp [hcd])]
              rw [hdep l]
              constructor
              · rintro (h1 | ⟨he, hv, hV'⟩)
                · exact Or.inl h1
                · exact Or.inr ⟨he, List.mem_cons_of_mem _ hv, hV'⟩
              · rintro (h1 | ⟨he, hv, hV'⟩)
                · exact Or.inl h1
                · rcases List.mem_cons.mp hv with rfl | hv'
                  · rcases (hdep l).mp hcd with h2 | ⟨_, hcv, _⟩
                    · exact Or.inl h2
                    · exact absurd hcv hvis
                  · exact Or.inr ⟨he, hv', hV'⟩
            · rw [if_pos ⟨rfl, hend, hcd⟩]
              rw [List.mem_append, List.mem_singleton, hdep l]
              constructor
              · rintro ((h1 | ⟨he, hv, hV'⟩) | rfl)
                · exact Or.inl h1
                · exact Or.inr ⟨he, List.mem_cons_of_mem _ hv, hV'⟩
                · exact Or.inr ⟨hend, List.mem_cons_self _ _, hcurV⟩
              · rintro (h1 | ⟨he, hv, hV'⟩)
                · exact Or.inl (Or.inl h1)
                · rcases List.mem_cons.mp hv with rfl | hv'
                  · exact Or.inr rfl
                  · exact Or.inl (Or.inr ⟨he, hv', hV'⟩)
          · rw [if_neg (by simp [hend])]
            rw [hdep l]
            constructor
            · rintro (h1 | ⟨he, hv, hV'⟩)
              · exact Or.inl h1
              · exact Or.inr ⟨he, List.mem_cons_of_mem _ hv, hV'⟩
            · rintro (h1 | ⟨he, hv, hV'⟩)
              · exact Or.inl h1
              · rcases List.mem_cons.mp hv with rfl | hv'
                · exact absurd he hend
                · exact Or.inr ⟨he, hv', hV'⟩
        have hother₁ : ∀ o, ¬ o = out →
            (if o = out ∧ env.isEndNode cur ∧ cur ∉ st.deps out
             then st.deps out ++ [cur] else st.deps o) = deps₀ o := by
          intro o ho
          rw [if_neg (by simp [ho]), hother o ho]
        obtain ⟨c1, c2, c3, c4, c5, c6⟩ :=
          ih (enqueueInputs (cur :: st.visited) (env.input_layers cur) rest)
            { visited := cur :: st.visited
              deps := fun o =>
                if o = out ∧ env.isEndNode cur ∧ cur ∉ st.deps out
                then st.deps out ++ [cur] else st.deps o
              edges := st.edges ++ (env.input_layers cur).map (fun i => (i, cur)) }
            st' h hfr₁ hqr₁ hsnd₁ hV₁ hdep₁ hother₁
        refine ⟨c1, c2, ?_, ?_, c5, c6⟩
        · intro x hx
          exact c3 x (List.mem_cons_of_mem _ hx)
        · intro x hx
          rcases List.mem_cons.mp hx with rfl | hx'
          · exact c3 x (List.mem_cons_self _ _)
          · apply c4
            rw [enqueueInputs_mem]
            exact Or.inl hx'

/-- Specification of one completed `build_graph(out)` run from a state
whose visited set is input-closed: the new visited set is the old one plus
everything reachable from `out`, it is again closed, and
`dependencies[out]` gains exactly the reachable end nodes that were not
yet visited. -/
theorem bfs_run_spec (env : LayerEnv) (out fuel : Nat) (st st' : BState)
    (h : bfsStep env out fuel st [out] = some st')
    (hc : inputClosed env st.visited) :
    inputClosed env st'.visited ∧
    (∀ x, x ∈ st'.visited ↔ x ∈ st.visited ∨ Reach env out x) ∧
    (∀ l, l ∈ st'.deps out ↔ l ∈ st.deps out ∨
      (env.isEndNode l = true ∧ Reach env out l ∧ l ∉ st.visited)) ∧
    (∀ o, ¬ o = out → st'.deps o = st.deps o) := by
  obtain ⟨c1, c2, c3, c4, c5, c6⟩ :=
    bfsStep_invariant env out st.visited st.deps fuel [out] st st' h
      (fun v hv w hw => Or.inl (hc v hv w hw))
      (fun x hx => by rcases List.mem_singleton.mp hx with rfl; exact Reach.refl x)
      (fun x hx => Or.inl hx)
      (fun x hx => hx)
      (fun l => by
        constructor
        · intro hl; exact Or.inl hl
        · rintro (hl | ⟨_, hv, hnv⟩)
          · exact hl
          · exact absurd hv hnv)
      (fun o _ => rfl)
  have hout : out ∈ st'.visited := c4 out (List.mem_singleton.mpr rfl)
  have hvis_iff : ∀ x, x ∈ st'.visited ↔ x ∈ st.visited ∨ Reach env out x := by
    intro x
    constructor
    · intro hx; exact c2 x hx
    · rintro (hx | hx)
      · exact c3 x hx
      · exact inputClosed_reach c1 hout hx
  refine ⟨c1, hvis_iff, ?_, c6⟩
  intro l
  rw [c5 l]
  constructor
  · rintro (h1 | ⟨he, hv, hnv⟩)
    · exact Or.inl h1
    · rcases (hvis_iff l).mp hv with h2 | h2
      · exact absurd h2 hnv
      · exact Or.inr ⟨he, h2, hnv⟩
  · rintro (h1 | ⟨he, hr, hnv⟩)
    · exact Or.inl h1
    · exact Or.inr ⟨he, (hvis_iff l).mpr (Or.inr hr), hnv⟩

/-- `takeWhile` passes over a prefix it wholly accepts. -/
theorem takeWhile_append_of_all {p : Nat → Bool} :
    ∀ l₁ l₂ : List Nat, (∀ x ∈ l₁, p x = true) →
      (l₁ ++ l₂).takeWhile p = l₁ ++ l₂.takeWhile p := by
  intro l₁
  induction l₁ with
  | nil => intro l₂ _; rfl
  | cons a as ih =>
    intro l₂ hall
    rw [List.cons_append]
    simp only [List.takeWhile_cons, hall a (List.mem_cons_self _ _), if_true,
      List.cons_append]
    rw [ih l₂ (fun x hx => hall x (List.mem_cons_of_mem _ hx))]

/-- `takeWhile` stops inside a prefix containing a rejected element. -/
theorem takeWhile_append_of_exists {p : Nat → Bool} :
    ∀ l₁ l₂ : List Nat, (∃ x ∈ l₁, p x = false) →
      (l₁ ++ l₂).takeWhile p = l₁.takeWhile p := by
  intro l₁
  induction l₁ with
  | nil =>
    rintro l₂ ⟨x, hx, _⟩
    exact absurd hx (List.not_mem_nil x)
  | cons a as ih =>
    rintro l₂ ⟨x, hx, hpx⟩
    by_cases hpa : p a = true
    · have hxas : x ∈ as := by
        rcases List.mem_cons.mp hx with rfl | hmem
        · rw [hpa] at hpx; exact absurd hpx (by simp)
        · exact hmem
      rw [List.cons_append]
      simp only [List.takeWhile_cons, hpa, if_true]
      rw [ih l₂ ⟨x, hxas, hpx⟩]
    · have hpa' : p a = false := by
        cases hval : p a
        · rfl
        · exact absurd hval hpa
      rw [List.cons_append]
      simp [List.takeWhile_cons, hpa']

/-- Unfolding of `buildAll` on a cons. -/
theorem buildAll_cons (env : LayerEnv) (fuel out : Nat) (rest : List Nat)
    (st : BState) :
    buildAll env fuel (out :: rest) st =
      match bfsStep env out fuel st [out] with
      | none => none
      | some st' => buildAll env fuel rest st' := rfl

/-- Invariant of the output loop: after processing `outs` on top of the
already-processed list `done`, `dependencies[o]` holds exactly the
placeholder end nodes reachable from `o` but from no output listed before
the first occurrence of `o`. -/
theorem buildAll_go_spec (env : LayerEnv) (fuel : Nat) :
    ∀ (outs done : List Nat) (st₀ st' : BState),
      buildAll env fuel outs st₀ = some st' →
      inputClosed env st₀.visited →
      (∀ x, x ∈ st₀.visited ↔ ∃ o ∈ done, Reach env o x) →
      (∀ o l, l ∈ st₀.deps o ↔
        (o ∈ done ∧ env.isEndNode l = true ∧ Reach env o l ∧
          ¬ ∃ o' ∈ done.takeWhile (fun x => ¬ x = o), Reach env o' l)) →
      (∀ o l, l ∈ st'.deps o ↔
        (o ∈ done ++ outs ∧ env.isEndNode l = true ∧ Reach env o l ∧
          ¬ ∃ o' ∈ (done ++ outs).takeWhile (fun x => ¬ x = o), Reach env o' l)) := by
  intro outs
  induction outs with
  | nil =>
    intro done st₀ st' h _ _ hdep
    injection h with h'
    subst h'
    simpa using hdep
  | cons out rest ih =>
    intro done st₀ st' h hc hvis hdep
    rw [buildAll_cons] at h
    cases hbfs : bfsStep env out fuel st₀ [out] with
    | none => rw [hbfs] at h; exact Option.noConfusion h
    | some st₁ =>
      rw [hbfs] at h
      obtain ⟨hc₁, hvis₁, hdeps₁out, hdeps₁other⟩ :=
        bfs_run_spec env out fuel st₀ st₁ hbfs hc
      have hvis' : ∀ x, x ∈ st₁.visited ↔ ∃ o ∈ done ++ [out], Reach env o x := by
        intro x
        rw [hvis₁ x, hvis x]
        constructor
        · rintro (⟨o, ho, hr⟩ | hr)
          · exact ⟨o, List.mem_append.mpr (Or.inl ho), hr⟩
          · exact ⟨out, List.mem_append.mpr (Or.inr (List.mem_singleton.mpr rfl)), hr⟩
        · rintro ⟨o, ho, hr⟩
          rcases List.mem_append.mp ho with ho | ho
          · exact Or.inl ⟨o, ho, hr⟩
          · rcases List.mem_singleton.mp ho with rfl
            exact Or.inr hr
      have hdep' : ∀ o l, l ∈ st₁.deps o ↔
          (o ∈ done ++ [out] ∧ env.isEndNode l = true ∧ Reach env o l ∧
            ¬ ∃ o' ∈ (done ++ [out]).takeWhile (fun x => ¬ x = o),
              Reach env o' l) := by
        intro o l
        by_cases ho : o = out
        · subst ho
          rw [hdeps₁out l, hdep o l]
          by_cases hdone : o ∈ done
          · have htw : (done ++ [o]).takeWhile (fun x => ¬ x = o) =
                done.takeWhile (fun x => ¬ x = o) :=
              takeWhile_append_of_exists done [o] ⟨o, hdone, by simp⟩
            rw [htw]
            constructor
            · rintro (⟨_, he, hr, hne⟩ | ⟨he, hr, hnv⟩)
              · exact ⟨List.mem_append.mpr (Or.inl hdone), he, hr, hne⟩
              · exact absurd ((hvis l).mpr ⟨o, hdone, hr⟩) hnv
            · rintro ⟨_, he, hr, hne⟩
              exact Or.inl ⟨hdone, he, hr, hne⟩
          · have htw : (done ++ [o]).takeWhile (fun x => ¬ x = o) = done := by
              rw [takeWhile_append_of_all done [o] (fun x hx => by
                simp only [decide_eq_true_eq]
                intro hxo
                exact hdone (hxo ▸ hx))]
              simp
            rw [htw]
            constructor
            · rintro (⟨hdone', _, _, _⟩ | ⟨he, hr, hnv⟩)
              · exact absurd hdone' hdone
              · refine ⟨List.mem_append.mpr (Or.inr (List.mem_singleton.mpr rfl)),
                  he, hr, ?_⟩
                rintro ⟨o', ho', hr'⟩
                exact hnv ((hvis l).mpr ⟨o', ho', hr'⟩)
            · rintro ⟨_, he, hr, hne⟩
              right
              refine ⟨he, hr, ?_⟩
              intro hv
              rcases (hvis l).mp hv with ⟨o', ho', hr'⟩
              exact hne ⟨o', ho', hr'⟩
        · rw [hdeps₁other o ho, hdep o l]
          constructor
          · rintro ⟨hdone, he, hr, hne⟩
            refine ⟨List.mem_append.mpr (Or.inl hdone), he, hr, ?_⟩
            rw [takeWhile_append_of_exists done [out] ⟨o, hdone, by simp⟩]
            exact hne
          · rintro ⟨hmem, he, hr, hne⟩
            have hdone : o ∈ done := by
              rcases List.mem_append.mp hmem with h1 | h1
              · exact h1
              · exact absurd (List.mem_singleton.mp h1) ho
            refine ⟨hdone, he, hr, ?_⟩
            rw [takeWhile_append_of_exists done [out] ⟨o, hdone, by simp⟩] at hne
            exact hne
      have hres := ih (done ++ [out]) st₁ st' h hc₁ hvis' hdep'
      intro o l
      rw [hres o l]
      rw [List.append_assoc, List.singleton_append]

/-- C1 (amended): for every completed construction, `dependencies[o]`
contains a layer `l` iff `l` has no input layers, has a `placeholder`
attribute, is reachable from `o` along `input_layers` edges (including
`l = o`), and is *not* reachable from any output listed before the first
occurrence of `o` — the traversal's shared `visited` set assigns each end
node only to the first output that reaches it, so the per-output
reachability equivalence of the original claim holds only when earlier
outputs reach none of `o`'s end nodes. -/
theorem buildAll_deps_characterization (env : LayerEnv) (fuel : Nat)
    (outputs : List Nat) (st : BState)
    (h : buildAll env fuel outputs initBState = some st) :
    ∀ o ∈ outputs, ∀ l,
      l ∈ st.deps o ↔
        (env.isEndNode l = true ∧ Reach env o l ∧
          ¬ ∃ o' ∈ outputs.takeWhile (fun x => ¬ x = o), Reach env o' l) := by
  have hres := buildAll_go_spec env fuel outputs [] initBState st h
    (by intro v hv; exact absurd hv (List.not_mem_nil v))
    (by intro x; simp [initBState])
    (by intro o l; simp [initBState])
  intro o ho l
  have hx := hres o l
  rw [List.nil_append] at hx
  rw [hx]
  simp [ho]

/-- Witness for `buildAll_deps_characterization`: in the shared two-output
graph, `dependencies[4] = [1]`, and indeed `1` is an end node reachable
from `4` and unreachable from the earlier output `3`. -/
theorem buildAll_deps_characterization_witness :
    envShared.isEndNode 1 = true ∧ Reach envShared 4 1 ∧
      ¬ ∃ o' ∈ ([3, 4] : List Nat).takeWhile (fun x => ¬ x = 4),
        Reach envShared o' 1 :=
  (buildAll_deps_characterization envShared 10 [3, 4] c1State rfl 4
    (by decide) 1).mp (by decide)
